import Mathlib

/-!
Shallow embedding of the program-graph model and code generator of the
`learnable` visual block editor (file `src/ast.rs`, helpers in
`src/utils/mod.rs`).

Strings are modelled as `List Char`.  Rust's `str::replacen(pat, val, 1)`
becomes `replaceFirst`, the `format!("{{{{{index}}}}}")` placeholder becomes
`placeholder`, and the `HashMap` resources (`BlockDataMap.map`,
`Ast.map`) become functions `Entity → Option _`, since the code only ever
looks entries up by key (never iterates them).

The Rust functions `BlockDataMap::expand_holes` and `Ast::traverse_branch`
recurse without any guard, so a cyclic graph makes them recurse forever.
The embedding makes that explicit with a `fuel` argument: a `none` result
means the recursion depth exceeded the fuel, and a computation that returns
`none` for every fuel is one the Rust code never finishes.
-/

/-- Bevy `Entity`: an opaque identifier. -/
def Entity : Type := Nat

instance : DecidableEq Entity := fun a b => Nat.decEq a b
instance : OfNat Entity n := ⟨(n : Nat)⟩

/-- `utils::BlockType` (struct form): the generator only uses
`get_template()` (the `template_string` field), `get_holes()` (the length of
the `holes` vector, modelled directly as a count) and whether the block is
tagged `Start` (the `matches!(block_type, BlockType::Start)` test in
`print_ast`, modelled as the flag `isStart`). -/
structure BlockType where
  template_string : List Char
  holes : Nat
  isStart : Bool
deriving DecidableEq

/-- `BlockType::get_template`. -/
def BlockType.get_template (b : BlockType) : List Char := b.template_string

/-- `BlockType::get_holes`. -/
def BlockType.get_holes (b : BlockType) : Nat := b.holes

/-- `ast::BlockDataType`: a hole is filled either by a literal string value
or by a reference to another block entity. -/
inductive BlockDataType where
  | Hole (entity : Entity)
  | Value (val : List Char)
deriving DecidableEq

/-- `ast::BlockData`: one hole entry of a block. -/
structure BlockData where
  block_type : BlockType
  data_type : BlockDataType
  position : Nat
deriving DecidableEq

/-- `ast::BlockDataMap`: the hole-data store resource. -/
structure BlockDataMap where
  map : Entity → Option (List BlockData)

/-- `format!("{{{{{index}}}}}")`: the placeholder pattern for index `n`,
two opening braces, the decimal digits of `n`, two closing braces. -/
def placeholder (n : Nat) : List Char :=
  '{' :: '{' :: (Nat.toDigits 10 n ++ ['}', '}'])

/-- Rust `str::replacen(pat, repl, 1)` on `List Char`: replace the first
occurrence of `pat` in `t` by `repl` and leave everything else unchanged. -/
def replaceFirst : List Char → List Char → List Char → List Char
  | [], pat, repl =>
    if pat.isPrefixOf ([] : List Char) then repl ++ ([] : List Char).drop pat.length else []
  | c :: rest, pat, repl =>
    if pat.isPrefixOf (c :: rest) then repl ++ (c :: rest).drop pat.length
    else c :: replaceFirst rest pat repl

/-- The substitution loop of `expand_holes`: for each collected value, in
order, replace the first occurrence of the `i`-th placeholder (1-based). -/
def substNumbered : List Char → Nat → List (List Char) → List Char
  | t, _, [] => t
  | t, i, v :: vs => substNumbered (replaceFirst t (placeholder i) v) (i + 1) vs

/-- `data.sort_by(|d1, d2| d1.position.cmp(&d2.position))`: a stable
ascending sort by `position` (Rust's `sort_by` is stable; so is
insertion sort). -/
def sortByPosition (l : List BlockData) : List BlockData :=
  l.insertionSort (fun a b => a.position ≤ b.position)

/-- The value-collection loop of `expand_holes`, parameterized by the
recursive expansion call `g`: literal values are used directly, hole
references are expanded with `g` using the referenced entry's stored block
type. -/
def expandValuesWith (g : Entity → BlockType → Option (List Char)) :
    List BlockData → Option (List (List Char))
  | [] => some []
  | d :: rest =>
    match d.data_type with
    | BlockDataType.Value v =>
      match expandValuesWith g rest with
      | none => none
      | some vs => some (v :: vs)
    | BlockDataType.Hole e2 =>
      match g e2 d.block_type, expandValuesWith g rest with
      | some s, some vs => some (s :: vs)
      | _, _ => none

/-- `BlockDataMap::expand_holes`, with explicit recursion fuel.  If the
entity has no entry in the map, the raw template of its block type is
returned (after an `info!` diagnostic in the source).  Otherwise the entry is
sorted by position, every entry is turned into a string (literal values
directly, hole references by recursive expansion), and the values are
substituted into the template at placeholders `{{1}}`, `{{2}}`, … each
replacing the first occurrence only. -/
def BlockDataMap.expand_holes (m : BlockDataMap) : Nat → Entity → BlockType → Option (List Char)
  | 0, _, _ => none
  | f + 1, e, bt =>
    match m.map e with
    | none => some bt.get_template
    | some data =>
      match expandValuesWith (fun e2 b2 => m.expand_holes f e2 b2) (sortByPosition data) with
      | none => none
      | some vals => some (substNumbered bt.get_template 1 vals)

/-- One node's structural-children array
`[Option<(Entity, BlockType)>; 3]`: index 0 is the Left branch, index 1
the Right branch, index 2 the Flow child (`traverse_branch` reads
`branches.get(0..=1)` for the branches and `branches.last()` for the
flow). -/
structure Slots where
  left : Option (Entity × BlockType)
  right : Option (Entity × BlockType)
  flow : Option (Entity × BlockType)
deriving DecidableEq

/-- Read slot `i` of the array (`value[order]`). -/
def Slots.get (s : Slots) (i : Fin 3) : Option (Entity × BlockType) :=
  if i.val = 0 then s.left else if i.val = 1 then s.right else s.flow

/-- Write slot `i` of the array (`value[order] = v`). -/
def Slots.set (s : Slots) (i : Fin 3) (v : Option (Entity × BlockType)) : Slots :=
  if i.val = 0 then { s with left := v }
  else if i.val = 1 then { s with right := v }
  else { s with flow := v }

/-- `<[Option<(Entity, BlockType)>; 3]>::default()`: all slots empty. -/
def emptySlots : Slots := ⟨none, none, none⟩

/-- `ast::Ast`: the graph-store resource. -/
structure Ast where
  map : Entity → Option Slots

/-- `Ast::traverse_branch`, with explicit recursion fuel.  The node's holes
are expanded first; if the node has no entry in `Ast.map` that string is the
result.  Otherwise the loop
`branches.get(0..=1).unwrap().iter().filter(|x| x.is_some()).enumerate()`
substitutes each PRESENT branch, in Left-then-Right order, at placeholder
`hole + index + 1` where `index` counts only the present branches (so a
lone Right branch gets index 0).  Finally a present Flow child's expansion
is appended after a newline. -/
def Ast.traverse_branch (ast : Ast) (m : BlockDataMap) :
    Nat → Entity → BlockType → Option (List Char)
  | 0, _, _ => none
  | f + 1, e, bt =>
    match m.expand_holes (f + 1) e bt with
    | none => none
    | some full =>
      match ast.map e with
      | none => some full
      | some branches =>
        let hole := bt.get_holes
        let afterBranches : Option (List Char) :=
          match branches.left, branches.right with
          | none, none => some full
          | some (be, bb), none =>
            match ast.traverse_branch m f be bb with
            | none => none
            | some s => some (replaceFirst full (placeholder (hole + 0 + 1)) s)
          | none, some (be, bb) =>
            match ast.traverse_branch m f be bb with
            | none => none
            | some s => some (replaceFirst full (placeholder (hole + 0 + 1)) s)
          | some (le, lb), some (re, rb) =>
            match ast.traverse_branch m f le lb with
            | none => none
            | some ls =>
              match ast.traverse_branch m f re rb with
              | none => none
              | some rs =>
                some (replaceFirst (replaceFirst full (placeholder (hole + 0 + 1)) ls)
                  (placeholder (hole + 1 + 1)) rs)
        match afterBranches with
        | none => none
        | some full2 =>
          match branches.flow with
          | none => some full2
          | some (fe, fb) =>
            match ast.traverse_branch m f fe fb with
            | none => none
            | some s => some (full2 ++ '\n' :: s)

/-- `ast::AddToAst` event. -/
structure AddToAst where
  parent : Option (Entity × Fin 3)
  child : Entity × BlockType

/-- `ast::RemoveFromAst` event. -/
structure RemoveFromAst where
  parent : Option (Entity × Fin 3)
  child : Entity

/-- `ASTPlugin::handle_add_to_ast` for one event: with a parent,
`ast.map.entry(parent).or_default()` then `value[order] = Some(child)`;
without one, just `ast.map.entry(child.0).or_default()`. -/
def ASTPlugin.handle_add_to_ast (ast : Ast) (event : AddToAst) : Ast :=
  match event.parent with
  | some (parent, order) =>
    { map := fun x =>
        if x = parent then
          some (Slots.set ((ast.map parent).getD emptySlots) order (some event.child))
        else ast.map x }
  | none =>
    { map := fun x =>
        if x = event.child.fst then some ((ast.map event.child.fst).getD emptySlots)
        else ast.map x }

/-- `ASTPlugin::handle_remove_from_ast` for one event: with a parent,
`ast.map.entry(parent).or_default()` then `value[order] = None`; without
one, `ast.map.remove_entry(&child)`. -/
def ASTPlugin.handle_remove_from_ast (ast : Ast) (event : RemoveFromAst) : Ast :=
  match event.parent with
  | some (parent, order) =>
    { map := fun x =>
        if x = parent then
          some (Slots.set ((ast.map parent).getD emptySlots) order none)
        else ast.map x }
  | none =>
    { map := fun x => if x = event.child then none else ast.map x }

/-- Result of one generation pass. -/
inductive GenResult where
  | noProgram
  | diverged
  | generated (code : List Char)
deriving DecidableEq

/-- `ASTPlugin::print_ast`: find the first block tagged `Start` in the
world; if none exists log "There is no start block in the world" and emit
nothing (`GenResult.noProgram`); otherwise traverse from it.
`GenResult.diverged` marks the fuel-exhaustion case that the Rust code
experiences as unbounded recursion. -/
def ASTPlugin.print_ast (world : List (Entity × BlockType)) (ast : Ast)
    (m : BlockDataMap) (fuel : Nat) : GenResult :=
  match world.find? (fun p => p.snd.isStart) with
  | none => GenResult.noProgram
  | some (se, sb) =>
    match ast.traverse_branch m fuel se sb with
    | none => GenResult.diverged
    | some code => GenResult.generated code

/-! ### Helper definitions used by the theorems -/

/-- Index of the first occurrence of `pat` in `t`, if any (specification
device for `replaceFirst`). -/
def firstMatchIdx : List Char → List Char → Option Nat
  | [], pat => if pat.isPrefixOf ([] : List Char) then some 0 else none
  | c :: rest, pat =>
    if pat.isPrefixOf (c :: rest) then some 0 else (firstMatchIdx rest pat).map (· + 1)

/-- The value a hole entry contributes when every referenced entity is
unregistered in the hole-data store: a literal contributes itself, a
reference contributes the raw template of its stored block type. -/
def holeFallback (d : BlockData) : List Char :=
  match d.data_type with
  | BlockDataType.Value v => v
  | BlockDataType.Hole _ => d.block_type.get_template

/-- `ast` links the given nodes into a pure Flow chain: every node points to
the next one through its Flow slot (Left and Right empty) and the last node
has no entry. -/
def chainHyp : List (Entity × BlockType) → Ast → Prop
  | [], _ => True
  | [p], ast => ast.map p.fst = none
  | p :: q :: rest, ast =>
    ast.map p.fst = some ⟨none, none, some q⟩ ∧ chainHyp (q :: rest) ast

/-- Join strings with single newlines between them. -/
def joinLines : List (List Char) → List Char
  | [] => []
  | [t] => t
  | t :: rest => t ++ '\n' :: joinLines rest

/-! ### Concrete witness data -/

/-- A hole-data store with no entries. -/
def mEmpty : BlockDataMap := ⟨fun _ => none⟩

/-- An argument-style block type with no holes. -/
def btText : BlockType := ⟨['T'], 0, false⟩

/-- A two-hole block type with template `"{{1}} {{2}}"`. -/
def btMain : BlockType := ⟨placeholder 1 ++ ' ' :: placeholder 2, 2, false⟩

/-- Hole data giving node 0 the literal values `"{{2}}"` (hole 0) and
`"X"` (hole 1): the user typed placeholder-looking text into hole 0. -/
def mC1 : BlockDataMap :=
  ⟨fun e => if e = (0 : Entity) then
      some [⟨btText, BlockDataType.Value (placeholder 2), 0⟩,
            ⟨btText, BlockDataType.Value ['X'], 1⟩]
    else none⟩

/-- An If-style block type: one hole, template `"{{1}}|{{2}}|{{3}}"`
(condition, Left branch, Right branch). -/
def btIf : BlockType := ⟨placeholder 1 ++ '|' :: (placeholder 2 ++ '|' :: placeholder 3), 1, false⟩

/-- A leaf block type with template `"R"`. -/
def btR : BlockType := ⟨['R'], 0, false⟩

/-- A graph in which node 0 has ONLY a Right structural child (node 1). -/
def astC2 : Ast :=
  ⟨fun e => if e = (0 : Entity) then some ⟨none, some (1, btR), none⟩ else none⟩

/-- Hole data giving node 0 the single literal value `"c"`. -/
def mC2 : BlockDataMap :=
  ⟨fun e => if e = (0 : Entity) then some [⟨btText, BlockDataType.Value ['c'], 0⟩] else none⟩

/-- A Start-tagged block type with template `"s"` and no holes. -/
def btStart : BlockType := ⟨['s'], 0, true⟩

/-- A cyclic graph: node 0's Flow slot points back at node 0 itself. -/
def astCyc : Ast :=
  ⟨fun e => if e = (0 : Entity) then some ⟨none, none, some (0, btStart)⟩ else none⟩

/-- A small graph store with one registered entry, used as witness data for
the store-mutation claims: node 0 has Flow child 1. -/
def astReg : Ast :=
  ⟨fun e => if e = (0 : Entity) then some ⟨none, none, some (1, btR)⟩ else none⟩

/-- Hole data in which node 0's hole 0 references entity 7, which has no
entry anywhere in the store (a dangling reference), and hole 1 holds the
literal `"y"`. -/
def mC6 : BlockDataMap :=
  ⟨fun e => if e = (0 : Entity) then
      some [⟨btR, BlockDataType.Hole 7, 0⟩, ⟨btText, BlockDataType.Value ['y'], 1⟩]
    else none⟩

/-- Hole entry `"a"` at position 0. -/
def dA : BlockData := ⟨btText, BlockDataType.Value ['a'], 0⟩

/-- Hole entry `"b"` at position 1. -/
def dB : BlockData := ⟨btText, BlockDataType.Value ['b'], 1⟩

/-- Node 0's hole entries stored in position order. -/
def mC3a : BlockDataMap := ⟨fun e => if e = (0 : Entity) then some [dA, dB] else none⟩

/-- Node 0's hole entries stored in the opposite order. -/
def mC3b : BlockDataMap := ⟨fun e => if e = (0 : Entity) then some [dB, dA] else none⟩

/-! ### Shared lemmas -/

theorem Slots.set_get_self (s : Slots) (i : Fin 3) : s.set i (s.get i) = s := by
  rcases s with ⟨l, r, fl⟩
  unfold Slots.set Slots.get
  by_cases h0 : i.val = 0 <;> by_cases h1 : i.val = 1 <;> simp [h0, h1]

theorem Slots.get_set_ne (s : Slots) (i j : Fin 3) (v : Option (Entity × BlockType))
    (hij : j ≠ i) : (s.set i v).get j = s.get j := by
  rcases s with ⟨l, r, fl⟩
  have hval : j.val ≠ i.val := fun h => hij (Fin.ext h)
  unfold Slots.set Slots.get
  by_cases h0 : i.val = 0 <;> by_cases h1 : i.val = 1 <;>
    by_cases g0 : j.val = 0 <;> by_cases g1 : j.val = 1 <;>
      simp [h0, h1, g0, g1] <;> omega

/-! ### Claim theorems -/

/-- C8: for every node that has no registered entry in the hole-data store,
expanding that node does not fail: `expand_holes` returns the node's raw,
unsubstituted template string (the `info!` diagnostic branch of the
source), for any positive recursion fuel. -/
theorem claim_C8 (m : BlockDataMap) (f : Nat) (e : Entity) (bt : BlockType)
    (h : m.map e = none) :
    m.expand_holes (f + 1) e bt = some bt.get_template := by
  simp [BlockDataMap.expand_holes, h]

theorem claim_C8_witness :
    mEmpty.map 0 = none ∧ mEmpty.expand_holes 1 0 btR = some btR.get_template :=
  ⟨rfl, claim_C8 mEmpty 0 0 btR rfl⟩

/-- C5: for every world containing no block tagged `Start` (including the
empty world), a generation pass produces no generated source text: it
reports the "no program" outcome and does not crash, whatever the graph
store, hole data and fuel are. -/
theorem claim_C5 (world : List (Entity × BlockType)) (ast : Ast) (m : BlockDataMap)
    (fuel : Nat) (h : ∀ p ∈ world, p.snd.isStart = false) :
    ASTPlugin.print_ast world ast m fuel = GenResult.noProgram := by
  have hfind : world.find? (fun p => p.snd.isStart) = none := by
    rw [List.find?_eq_none]
    intro x hx
    simp [h x hx]
  simp [ASTPlugin.print_ast, hfind]

theorem claim_C5_witness :
    ASTPlugin.print_ast [] astReg mC2 5 = GenResult.noProgram ∧
      ASTPlugin.print_ast [(0, btR), (1, btText)] astReg mC2 5 = GenResult.noProgram :=
  ⟨claim_C5 [] astReg mC2 5 (by intro p hp; simp at hp),
   claim_C5 [(0, btR), (1, btText)] astReg mC2 5 (by decide)⟩

/-- C10: registering a node that already has an entry in the graph store
(an `AddToAst` event with no parent) leaves the store unchanged — the
`entry(child).or_default()` call is idempotent, so re-registering never
clears or resets the node's existing structural children. -/
theorem claim_C10 (ast : Ast) (e : Entity) (bt : BlockType) (s : Slots)
    (h : ast.map e = some s) :
    ASTPlugin.handle_add_to_ast ast ⟨none, (e, bt)⟩ = ast := by
  rcases ast with ⟨mp⟩
  simp only [ASTPlugin.handle_add_to_ast]
  congr 1
  funext x
  by_cases hx : x = e
  · subst hx
    simp only [if_pos rfl]
    simp only [Ast.map] at h
    rw [h]
    rfl
  · simp [hx]

theorem claim_C10_witness :
    ASTPlugin.handle_add_to_ast astReg ⟨none, (0, btIf)⟩ = astReg :=
  claim_C10 astReg 0 btIf ⟨none, none, some (1, btR)⟩ rfl

/-- C9 counterexample: removing a structural edge whose parent has NO entry
in the graph store is not a no-op — `entry(parent).or_default()` inserts a
fresh all-empty entry for the parent, so the store changes even though the
slot was (vacuously) already empty. -/
theorem claim_C9_counterexample :
    ASTPlugin.handle_remove_from_ast ⟨fun _ => none⟩ ⟨some (0, 0), 7⟩ ≠ (⟨fun _ => none⟩ : Ast) := by
  intro h
  have h0 := congrFun (congrArg Ast.map h) 0
  simp [ASTPlugin.handle_remove_from_ast] at h0

/-- C9 amended: if the parent already has an entry and the named slot is
already empty, `remove_structural_edge(parent, slot)` is a no-op leaving the
graph store unchanged; if the parent has no entry, a fresh all-empty entry
is inserted for it (so the store does change in that case).  In every case
only the parent's entry is touched: every other node's entry is unchanged,
and within the parent's entry every slot other than the named one keeps its
value. -/
theorem claim_C9 (ast : Ast) (p c : Entity) (order : Fin 3) :
    (∀ s, ast.map p = some s → s.get order = none →
      ASTPlugin.handle_remove_from_ast ast ⟨some (p, order), c⟩ = ast) ∧
    (∀ x, x ≠ p →
      (ASTPlugin.handle_remove_from_ast ast ⟨some (p, order), c⟩).map x = ast.map x) ∧
    ((ASTPlugin.handle_remove_from_ast ast ⟨some (p, order), c⟩).map p =
      some (Slots.set ((ast.map p).getD emptySlots) order none)) ∧
    (∀ j : Fin 3, j ≠ order →
      (Slots.set ((ast.map p).getD emptySlots) order none).get j =
        ((ast.map p).getD emptySlots).get j) := by
  refine ⟨?_, ?_, ?_, ?_⟩
  · intro s hs hslot
    rcases ast with ⟨mp⟩
    simp only [ASTPlugin.handle_remove_from_ast]
    congr 1
    funext x
    by_cases hx : x = p
    · subst hx
      simp only [Ast.map] at hs
      simp only [if_pos rfl, hs, Option.getD_some]
      rw [show (none : Option (Entity × BlockType)) = s.get order from hslot.symm,
        Slots.set_get_self]
      simp
    · simp [hx]
  · intro x hx
    simp [ASTPlugin.handle_remove_from_ast, hx]
  · simp [ASTPlugin.handle_remove_from_ast]
  · intro j hj
    exact Slots.get_set_ne _ order j none hj

theorem claim_C9_witness :
    (ASTPlugin.handle_remove_from_ast astReg ⟨some (0, 0), 7⟩ = astReg) ∧
    ((ASTPlugin.handle_remove_from_ast astReg ⟨some (0, 1), 7⟩).map 5 = astReg.map 5) ∧
    ((Slots.set ((astReg.map 0).getD emptySlots) 1 none).get 2 =
      ((astReg.map 0).getD emptySlots).get 2) :=
  ⟨(claim_C9 astReg 0 7 0).1 ⟨none, none, some (1, btR)⟩ rfl rfl,
   (claim_C9 astReg 0 7 1).2.1 5 (by decide),
   (claim_C9 astReg 0 7 1).2.2.2 2 (by decide)⟩

/-- C4: the code does NOT terminate on cyclic input.  For the graph in
which the Start node's Flow slot points back at the node itself, the
traversal exhausts every recursion fuel (`none` for all fuel — the Rust
code recurses unboundedly), and a generation pass never produces a result:
it reports the divergence marker for every fuel instead of terminating
with generated text. -/
theorem claim_C4 :
    (∀ fuel, astCyc.traverse_branch mEmpty fuel 0 btStart = none) ∧
    (∀ fuel, ASTPlugin.print_ast [(0, btStart)] astCyc mEmpty fuel = GenResult.diverged) := by
  have htrav : ∀ fuel, astCyc.traverse_branch mEmpty fuel 0 btStart = none := by
    intro fuel
    induction fuel with
    | zero => rfl
    | succ f ih =>
      have h1 : mEmpty.expand_holes (f + 1) 0 btStart = some btStart.get_template := by
        simp [BlockDataMap.expand_holes, mEmpty]
      have h2 : astCyc.map 0 = some ⟨none, none, some (0, btStart)⟩ := rfl
      simp only [Ast.traverse_branch, h1, h2, ih]
  refine ⟨htrav, fun fuel => ?_⟩
  have hfind : ([((0 : Entity), btStart)]).find? (fun p => p.snd.isStart) = some (0, btStart) :=
    rfl
  simp only [ASTPlugin.print_ast, hfind, htrav fuel]

theorem replaceFirst_spec_none (pat r : List Char) :
    ∀ t, firstMatchIdx t pat = none → replaceFirst t pat r = t := by
  intro t
  induction t with
  | nil =>
    intro h
    simp only [firstMatchIdx] at h
    by_cases hp : pat.isPrefixOf ([] : List Char)
    · simp [hp] at h
    · simp [replaceFirst, hp]
  | cons c rest ih =>
    intro h
    simp only [firstMatchIdx] at h
    by_cases hp : pat.isPrefixOf (c :: rest)
    · simp [hp] at h
    · simp only [hp, if_false, Bool.false_eq_true] at h
      have hrest : firstMatchIdx rest pat = none := by
        rcases hfm : firstMatchIdx rest pat with _ | k
        · rfl
        · rw [hfm] at h; simp at h
      simp [replaceFirst, hp, ih hrest]

theorem replaceFirst_spec_some (pat r : List Char) :
    ∀ t k, firstMatchIdx t pat = some k →
      replaceFirst t pat r = t.take k ++ r ++ t.drop (k + pat.length) := by
  intro t
  induction t with
  | nil =>
    intro k h
    simp only [firstMatchIdx] at h
    by_cases hp : pat.isPrefixOf ([] : List Char)
    · have hk : k = 0 := by simp [hp] at h; omega
      subst hk
      simp [replaceFirst, hp]
    · simp [hp] at h
  | cons c rest ih =>
    intro k h
    simp only [firstMatchIdx] at h
    by_cases hp : pat.isPrefixOf (c :: rest)
    · have hk : k = 0 := by simp [hp] at h; omega
      subst hk
      simp [replaceFirst, hp]
    · simp only [hp, if_false, Bool.false_eq_true] at h
      rcases hfm : firstMatchIdx rest pat with _ | k2
      · rw [hfm] at h; simp at h
      · rw [hfm] at h
        simp at h
        subst h
        simp only [replaceFirst, hp, if_false, Bool.false_eq_true]
        rw [ih k2 hfm]
        rw [List.take_succ_cons]
        have harith : k2 + 1 + pat.length = (k2 + pat.length) + 1 := by omega
        rw [harith, List.drop_succ_cons]
        simp

/-- C1 counterexample: node 0's template is `"{{1}} {{2}}"` and the user
typed the literal `"{{2}}"` into hole 0 and `"X"` into hole 1.  The claim
predicts the result `"{{2}} X"` (only the original template placeholders
replaced).  The code instead produces `"X {{2}}"`: substituting hole 1's
value inserts the text `{{2}}`, and the substitution for index 2 then
replaces THAT inserted text (the first occurrence in the current string),
leaving the template's own `{{2}}` placeholder unreplaced. -/
theorem claim_C1_counterexample :
    mC1.expand_holes 2 0 btMain = some ('X' :: ' ' :: placeholder 2) ∧
      ('X' :: ' ' :: placeholder 2) ≠ (placeholder 2 ++ ' ' :: ['X']) := by
  constructor
  · decide
  · decide

/-- C1 amended: numbered substitutions are performed in increasing index
order, once per index, and each replaces only the FIRST occurrence of its
placeholder in the current string (the earliest match position; everything
before and after that occurrence is untouched).  However, text introduced by
an earlier substitution is scanned again by later substitutions, so a hole
value containing a later placeholder pattern (e.g. `"{{2}}"` typed into
hole 1) captures that later substitution instead of the template's own
placeholder. -/
theorem claim_C1 :
    (∀ t pat r : List Char,
      (firstMatchIdx t pat = none → replaceFirst t pat r = t) ∧
      (∀ k, firstMatchIdx t pat = some k →
        replaceFirst t pat r = t.take k ++ r ++ t.drop (k + pat.length))) ∧
    (∀ (m : BlockDataMap) (f : Nat) (e : Entity) (bt : BlockType) ds vals,
      m.map e = some ds →
      expandValuesWith (fun e2 b2 => m.expand_holes f e2 b2) (sortByPosition ds) = some vals →
      m.expand_holes (f + 1) e bt = some (substNumbered bt.get_template 1 vals)) := by
  constructor
  · intro t pat r
    exact ⟨replaceFirst_spec_none pat r t, replaceFirst_spec_some pat r t⟩
  · intro m f e bt ds vals h1 h2
    simp [BlockDataMap.expand_holes, h1, h2]

theorem claim_C1_witness :
    (replaceFirst ('a' :: placeholder 1) (placeholder 1) ['X'] =
      ('a' :: placeholder 1).take 1 ++ ['X'] ++
        ('a' :: placeholder 1).drop (1 + (placeholder 1).length)) ∧
    (mC1.expand_holes 2 0 btMain =
      some (substNumbered btMain.get_template 1 [placeholder 2, ['X']])) :=
  ⟨(claim_C1.1 ('a' :: placeholder 1) (placeholder 1) ['X']).2 1 (by decide),
   claim_C1.2 mC1 1 0 btMain _ [placeholder 2, ['X']] rfl (by decide)⟩

/-- C2 counterexample: an If-style node (1 hole, template
`"{{1}}|{{2}}|{{3}}"`) whose ONLY structural branch is a Right child.  The
claim predicts the Right expansion at placeholder
`hole_count + branch_index + 1 = 1 + 1 + 1 = 3`, i.e. `"c|{{2}}|R"`.  The
code enumerates AFTER filtering out absent branches, so the lone Right
child gets branch index 0 and is substituted at placeholder 2, producing
`"c|R|{{3}}"`. -/
theorem claim_C2_counterexample :
    astC2.traverse_branch mC2 3 0 btIf = some ('c' :: '|' :: ('R' :: '|' :: placeholder 3)) ∧
      ('c' :: '|' :: ('R' :: '|' :: placeholder 3)) ≠
        ('c' :: '|' :: (placeholder 2 ++ '|' :: ['R'])) := by
  constructor
  · decide
  · decide

/-- C2 amended: present Left/Right branches are expanded in Left-then-Right
order and substituted at consecutive placeholder indices starting at
`hole_count + 1`, where the branch's index counts only the PRESENT branches:
with both branches present, Left goes to `hole_count + 1` and Right to
`hole_count + 2`; with exactly one branch present (whether Left or Right),
it goes to `hole_count + 1`; absent branch slots leave their placeholders
unfilled.  In particular an If-type node with only a Left child gets the
Left expansion at its Left placeholder while the Right placeholder is left
inert, without error. -/
theorem claim_C2 (ast : Ast) (m : BlockDataMap) (f : Nat) (e : Entity) (bt : BlockType)
    (branches : Slots) (full : List Char)
    (hast : ast.map e = some branches)
    (hexp : m.expand_holes (f + 1) e bt = some full)
    (hflow : branches.flow = none) :
    (branches.left = none → branches.right = none →
      ast.traverse_branch m (f + 1) e bt = some full) ∧
    (∀ be bb s, branches.left = some (be, bb) → branches.right = none →
      ast.traverse_branch m f be bb = some s →
      ast.traverse_branch m (f + 1) e bt =
        some (replaceFirst full (placeholder (bt.get_holes + 1)) s)) ∧
    (∀ be bb s, branches.left = none → branches.right = some (be, bb) →
      ast.traverse_branch m f be bb = some s →
      ast.traverse_branch m (f + 1) e bt =
        some (replaceFirst full (placeholder (bt.get_holes + 1)) s)) ∧
    (∀ le lb ls re rb rs, branches.left = some (le, lb) → branches.right = some (re, rb) →
      ast.traverse_branch m f le lb = some ls → ast.traverse_branch m f re rb = some rs →
      ast.traverse_branch m (f + 1) e bt =
        some (replaceFirst (replaceFirst full (placeholder (bt.get_holes + 1)) ls)
          (placeholder (bt.get_holes + 2)) rs)) := by
  refine ⟨?_, ?_, ?_, ?_⟩
  · intro hl hr
    simp [Ast.traverse_branch, hexp, hast, hl, hr, hflow]
  · intro be bb s hl hr hs
    simp [Ast.traverse_branch, hexp, hast, hl, hr, hflow, hs]
  · intro be bb s hl hr hs
    simp [Ast.traverse_branch, hexp, hast, hl, hr, hflow, hs]
  · intro le lb ls re rb rs hl hr hls hrs
    simp [Ast.traverse_branch, hexp, hast, hl, hr, hflow, hls, hrs]

theorem claim_C2_witness :
    astC2.traverse_branch mC2 2 0 btIf =
      some (replaceFirst ('c' :: '|' :: (placeholder 2 ++ '|' :: placeholder 3))
        (placeholder (btIf.get_holes + 1)) ['R']) :=
  (claim_C2 astC2 mC2 1 0 btIf ⟨none, some (1, btR), none⟩
      ('c' :: '|' :: (placeholder 2 ++ '|' :: placeholder 3)) rfl (by decide) rfl).2.2.1
    1 btR ['R'] rfl rfl (by decide)

theorem chain_traverse (m : BlockDataMap) (own : Entity × BlockType → List Char) :
    ∀ (ps : List (Entity × BlockType)) (p : Entity × BlockType) (ast : Ast),
      chainHyp (p :: ps) ast →
      (∀ q ∈ p :: ps, ∀ g : Nat, m.expand_holes (g + 1) q.fst q.snd = some (own q)) →
      ∀ fuel, (p :: ps).length ≤ fuel →
        ast.traverse_branch m fuel p.fst p.snd = some (joinLines ((p :: ps).map own)) := by
  intro ps
  induction ps with
  | nil =>
    intro p ast hchain hown fuel hfuel
    obtain ⟨f, rfl⟩ : ∃ f, fuel = f + 1 := ⟨fuel - 1, by simp at hfuel; omega⟩
    have hexp := hown p (by simp) f
    simp only [chainHyp] at hchain
    simp [Ast.traverse_branch, hexp, hchain, joinLines]
  | cons q rest ih =>
    intro p ast hchain hown fuel hfuel
    obtain ⟨qe, qb⟩ := q
    obtain ⟨f, rfl⟩ : ∃ f, fuel = f + 1 := ⟨fuel - 1, by simp at hfuel; omega⟩
    simp only [chainHyp] at hchain
    obtain ⟨hp, hrest⟩ := hchain
    have hexp := hown p (by simp) f
    have hih := ih (qe, qb) ast hrest
      (fun q2 hq2 g => hown q2 (List.mem_cons_of_mem p hq2) g) f
      (by simp at hfuel ⊢; omega)
    simp [Ast.traverse_branch, hexp, hp, hih, joinLines]

theorem joinLines_count : ∀ ts : List (List Char), ts ≠ [] → (∀ t ∈ ts, '\n' ∉ t) →
    (joinLines ts).count '\n' = ts.length - 1 := by
  intro ts
  induction ts with
  | nil => intro hne _; exact absurd rfl hne
  | cons t rest ih =>
    intro _ h
    cases rest with
    | nil =>
      have h0 : t.count '\n' = 0 := List.count_eq_zero.mpr (fun hm => h t (by simp) hm)
      simp [joinLines, h0]
    | cons t2 r2 =>
      have h0 : t.count '\n' = 0 := List.count_eq_zero.mpr (fun hm => h t (by simp) hm)
      have ihr := ih (by simp) (fun x hx => h x (List.mem_cons_of_mem _ hx))
      show (t ++ '\n' :: joinLines (t2 :: r2)).count '\n' = (t :: t2 :: r2).length - 1
      rw [List.count_append, List.count_cons_self, h0, ihr]
      simp

/-- C7: Flow chaining.  Locally: for every node whose Left and Right slots
are empty, a present Flow child's full expansion is appended after the
node's own expansion separated by exactly one newline, and an empty Flow
slot makes the node's own expansion final for that branch of the walk.
Globally: a chain of N nodes connected purely via Flow edges generates the
N node expansions in connection order joined by single newlines — N
newline-separated lines (exactly N-1 newline characters when the individual
expansions contain none). -/
theorem claim_C7 :
    (∀ (ast : Ast) (m : BlockDataMap) (f : Nat) (e : Entity) (bt : BlockType)
      (branches : Slots) (full : List Char) (fe : Entity) (fb : BlockType) (s : List Char),
      ast.map e = some branches → m.expand_holes (f + 1) e bt = some full →
      branches.left = none → branches.right = none → branches.flow = some (fe, fb) →
      ast.traverse_branch m f fe fb = some s →
      ast.traverse_branch m (f + 1) e bt = some (full ++ '\n' :: s)) ∧
    (∀ (ast : Ast) (m : BlockDataMap) (f : Nat) (e : Entity) (bt : BlockType)
      (branches : Slots) (full : List Char),
      ast.map e = some branches → m.expand_holes (f + 1) e bt = some full →
      branches.left = none → branches.right = none → branches.flow = none →
      ast.traverse_branch m (f + 1) e bt = some full) ∧
    (∀ (m : BlockDataMap) (own : Entity × BlockType → List Char)
      (ps : List (Entity × BlockType)) (p : Entity × BlockType) (ast : Ast),
      chainHyp (p :: ps) ast →
      (∀ q ∈ p :: ps, ∀ g : Nat, m.expand_holes (g + 1) q.fst q.snd = some (own q)) →
      ∀ fuel, (p :: ps).length ≤ fuel →
        ast.traverse_branch m fuel p.fst p.snd = some (joinLines ((p :: ps).map own))) ∧
    (∀ ts : List (List Char), ts ≠ [] → (∀ t ∈ ts, '\n' ∉ t) →
      (joinLines ts).count '\n' = ts.length - 1) := by
  refine ⟨?_, ?_, ?_, joinLines_count⟩
  · intro ast m f e bt branches full fe fb s hast hexp hl hr hfl hs
    simp [Ast.traverse_branch, hexp, hast, hl, hr, hfl, hs]
  · intro ast m f e bt branches full hast hexp hl hr hfl
    simp [Ast.traverse_branch, hexp, hast, hl, hr, hfl]
  · intro m own ps p ast hchain hown fuel hfuel
    exact chain_traverse m own ps p ast hchain hown fuel hfuel

theorem claim_C7_witness :
    astReg.traverse_branch mEmpty 5 0 btStart =
      some (joinLines (([((0 : Entity), btStart), (1, btR)]).map
        (fun q => q.snd.get_template))) :=
  claim_C7.2.2.1 mEmpty (fun q => q.snd.get_template) [(1, btR)] (0, btStart) astReg
    ⟨rfl, rfl⟩
    (fun q _ g => by simp [BlockDataMap.expand_holes, mEmpty])
    5 (by decide)

theorem expandValuesWith_fallback (m : BlockDataMap) (f : Nat) :
    ∀ l : List BlockData,
      (∀ d ∈ l, ∀ e2, d.data_type = BlockDataType.Hole e2 → m.map e2 = none) →
      expandValuesWith (fun e2 b2 => m.expand_holes (f + 1) e2 b2) l =
        some (l.map holeFallback) := by
  intro l
  induction l with
  | nil => intro _; rfl
  | cons d rest ih =>
    intro h
    have hrest := ih (fun x hx => h x (List.mem_cons_of_mem d hx))
    rcases hd : d.data_type with e2 | v
    · have hnone := h d (by simp) e2 hd
      have hin : m.expand_holes (f + 1) e2 d.block_type = some d.block_type.get_template := by
        simp [BlockDataMap.expand_holes, hnone]
      simp only [expandValuesWith, hd, hin, hrest, List.map_cons, holeFallback]
    · simp only [expandValuesWith, hd, hrest, List.map_cons, holeFallback]

/-- C6: when node `owner`'s hole entries reference only entities that are
not registered in the hole-data store, expanding `owner` still succeeds
(the pass is not aborted): every dangling reference substitutes the
referenced block type's raw placeholder template in place of that node's
expansion, and all the other hole values of `owner` are still substituted
normally. -/
theorem claim_C6 (m : BlockDataMap) (f : Nat) (owner : Entity) (bt : BlockType)
    (ds : List BlockData) (h1 : m.map owner = some ds)
    (h2 : ∀ d ∈ ds, ∀ e2, d.data_type = BlockDataType.Hole e2 → m.map e2 = none) :
    m.expand_holes (f + 2) owner bt =
      some (substNumbered bt.get_template 1 ((sortByPosition ds).map holeFallback)) := by
  have h2s : ∀ d ∈ sortByPosition ds, ∀ e2, d.data_type = BlockDataType.Hole e2 →
      m.map e2 = none :=
    fun d hd e2 hde => h2 d ((List.perm_insertionSort _ ds).subset hd) e2 hde
  have hvals := expandValuesWith_fallback m f (sortByPosition ds) h2s
  have key : m.expand_holes (f + 1 + 1) owner bt =
      (match m.map owner with
      | none => some bt.get_template
      | some data =>
        match expandValuesWith (fun e2 b2 => m.expand_holes (f + 1) e2 b2)
            (sortByPosition data) with
        | none => none
        | some vals => some (substNumbered bt.get_template 1 vals)) := rfl
  show m.expand_holes (f + 1 + 1) owner bt = _
  rw [key, h1]
  simp only [hvals]

theorem claim_C6_witness :
    mC6.expand_holes 2 0 btMain =
      some (substNumbered btMain.get_template 1
        ((sortByPosition [⟨btR, BlockDataType.Hole 7, 0⟩,
          ⟨btText, BlockDataType.Value ['y'], 1⟩]).map holeFallback)) :=
  claim_C6 mC6 0 0 btMain
    [⟨btR, BlockDataType.Hole 7, 0⟩, ⟨btText, BlockDataType.Value ['y'], 1⟩] rfl
    (by
      intro d hd e2 hde
      simp at hd
      rcases hd with rfl | rfl
      · cases hde
        rfl
      · cases hde)

instance : IsTotal BlockData (fun a b => a.position ≤ b.position) :=
  ⟨fun a b => Nat.le_total a.position b.position⟩

instance : IsTrans BlockData (fun a b => a.position ≤ b.position) :=
  ⟨fun _ _ _ hab hbc => Nat.le_trans hab hbc⟩

instance : IsAntisymm BlockData (fun a b => a.position < b.position) :=
  ⟨fun _ _ hab hba => absurd (Nat.lt_trans hab hba) (Nat.lt_irrefl _)⟩

theorem sortByPosition_perm (l : List BlockData) : List.Perm (sortByPosition l) l :=
  List.perm_insertionSort _ l

theorem sortByPosition_sorted (l : List BlockData) :
    List.Sorted (fun a b : BlockData => a.position ≤ b.position) (sortByPosition l) :=
  List.sorted_insertionSort _ l

theorem sortByPosition_sorted_lt {l : List BlockData}
    (hnodup : (l.map BlockData.position).Nodup) :
    List.Pairwise (fun a b : BlockData => a.position < b.position) (sortByPosition l) := by
  have hmap : ((sortByPosition l).map BlockData.position).Nodup :=
    (((sortByPosition_perm l).map BlockData.position).nodup_iff).mpr hnodup
  have hne : List.Pairwise (fun a b : BlockData => a.position ≠ b.position) (sortByPosition l) :=
    List.pairwise_map.mp hmap
  exact ((sortByPosition_sorted l).and hne).imp (fun hab => Nat.lt_of_le_of_ne hab.1 hab.2)

theorem sortByPosition_eq_of_perm {l l2 : List BlockData} (hperm : List.Perm l l2)
    (hnodup : (l.map BlockData.position).Nodup) : sortByPosition l = sortByPosition l2 := by
  have hn2 : (l2.map BlockData.position).Nodup := ((hperm.map BlockData.position).nodup_iff).mp hnodup
  exact List.eq_of_perm_of_sorted
    (((sortByPosition_perm l).trans hperm).trans (sortByPosition_perm l2).symm)
    (sortByPosition_sorted_lt hnodup) (sortByPosition_sorted_lt hn2)

theorem expand_holes_congr (m m2 : BlockDataMap)
    (hm : ∀ x, (m.map x).map sortByPosition = (m2.map x).map sortByPosition) :
    ∀ f (e : Entity) (bt : BlockType), m.expand_holes f e bt = m2.expand_holes f e bt := by
  intro f
  induction f with
  | zero => intro e bt; rfl
  | succ f ihf =>
    intro e bt
    have hg : (fun e2 b2 => m.expand_holes f e2 b2) = (fun e2 b2 => m2.expand_holes f e2 b2) :=
      funext fun e2 => funext fun b2 => ihf e2 b2
    have hx := hm e
    have key : ∀ (mm : BlockDataMap),
        mm.expand_holes (f + 1) e bt =
          (match mm.map e with
          | none => some bt.get_template
          | some data =>
            match expandValuesWith (fun e2 b2 => mm.expand_holes f e2 b2)
                (sortByPosition data) with
            | none => none
            | some vals => some (substNumbered bt.get_template 1 vals)) :=
      fun _ => rfl
    rw [key m, key m2]
    rcases h1 : m.map e with _ | d
    · rcases h2 : m2.map e with _ | d2
      · rfl
      · rw [h1, h2] at hx; simp at hx
    · rcases h2 : m2.map e with _ | d2
      · rw [h1, h2] at hx; simp at hx
      · rw [h1, h2] at hx
        simp only [Option.map_some'] at hx
        have hsort : sortByPosition d = sortByPosition d2 := by
          exact Option.some.inj hx
        simp only [hsort, hg]

/-- C3: hole values are substituted in ascending hole-position order
regardless of storage order.  First part: if two hole-data stores agree
everywhere except that node `e`'s entry list is stored as a permutation
(with pairwise-distinct positions), every expansion result is identical —
the generated substitution is deterministic for a fixed graph state.
Second part: the list actually consumed by the substitution loop,
`sortByPosition ds`, is a permutation of the stored entries sorted by
ascending position, so the 1-based placeholder `i` receives the value of
the entry with the i-th smallest position. -/
theorem claim_C3 :
    (∀ (m m2 : BlockDataMap) (e : Entity) (ds ds2 : List BlockData),
      m.map e = some ds → m2.map e = some ds2 → List.Perm ds ds2 →
      (ds.map BlockData.position).Nodup →
      (∀ x, x ≠ e → m2.map x = m.map x) →
      ∀ f (e2 : Entity) (bt : BlockType),
        m2.expand_holes f e2 bt = m.expand_holes f e2 bt) ∧
    (∀ ds : List BlockData,
      List.Perm (sortByPosition ds) ds ∧
      List.Pairwise (fun a b : BlockData => a.position ≤ b.position) (sortByPosition ds)) := by
  constructor
  · intro m m2 e ds ds2 h1 h2 hperm hnodup hother f e2 bt
    refine expand_holes_congr m2 m (fun x => ?_) f e2 bt
    by_cases hx : x = e
    · subst hx
      rw [h1, h2]
      simp only [Option.map_some']
      rw [sortByPosition_eq_of_perm hperm hnodup]
    · rw [hother x hx]
  · intro ds
    exact ⟨sortByPosition_perm ds, sortByPosition_sorted ds⟩

theorem claim_C3_witness :
    mC3b.expand_holes 2 0 btMain = mC3a.expand_holes 2 0 btMain :=
  claim_C3.1 mC3a mC3b 0 [dA, dB] [dB, dA] rfl rfl
    (List.Perm.swap dB dA [])
    (by decide)
    (fun x hx => by simp [mC3a, mC3b, hx])
    2 0 btMain
